import Mathlib

/-!
Verification of the `fastq_detangler` core (src/fastq_detangler/fastq_detangler.py).

The embedding is shallow: every definition below translates a piece of the
Python source.  Lines of a file are modelled as `List String` (each element a
raw line, line terminator included, exactly as produced by `readlines`).
Python `dict` values are modelled as association lists in insertion order,
with last-write-wins overwrite in place (`dinsert`), mirroring `d[k] = v`.
-/

/-- Mate type returned by `_identify_read_type` ("R1" / "R2"; `none` models
Python `None`). -/
inductive ReadType where
  | R1
  | R2
deriving DecidableEq, Repr

/-- Characters stripped by Python `str.strip()` (Python's notion of unicode
whitespace). -/
def pyIsSpace (c : Char) : Bool :=
  decide (c ∈ [' ', '\t', '\n', '\r', '\x0B', '\x0C',
    '\x1C', '\x1D', '\x1E', '\x1F', '\x85', '\xA0',
    '\u1680', '\u2000', '\u2001', '\u2002', '\u2003', '\u2004', '\u2005',
    '\u2006', '\u2007', '\u2008', '\u2009', '\u200A',
    '\u2028', '\u2029', '\u202F', '\u205F', '\u3000'])

/-- Python `s.strip()`: remove leading and trailing whitespace. -/
def pyStrip (s : String) : String :=
  ⟨((s.data.dropWhile pyIsSpace).reverse.dropWhile pyIsSpace).reverse⟩

/-- Python `s.startswith(m)` for a one-character marker `m` (the only form the
source uses: `startswith("@")`, `startswith("+")`). -/
def startsWithChar (s : String) (c : Char) : Bool :=
  match s.data with
  | [] => false
  | a :: _ => a = c

/-- Drop a single trailing newline, if present.  Python's `$` anchor (without
`re.MULTILINE`) matches at the end of the string or just before a newline
that ends the string, so a full match of `...$` may leave exactly one final
`'\n'` unconsumed. -/
def chopNL (l : List Char) : List Char :=
  if l.getLast? = some '\n' then l.dropLast else l

/-- Full-match test for the compiled pattern `^@(.+)/d$` (`d` being `'1'` for
`r1_pattern`, `'2'` for `r2_pattern`) under Python `re.match` semantics:
the string must start with `'@'`, the group `(.+)` is one or more characters
none of which is a newline (`.` does not match `'\n'`), then the literal
`'/'` and `d`, and then `$`: end of string, or a single final newline. -/
def reMatchMate (d : Char) (h : String) : Bool :=
  match h.data with
  | '@' :: rest =>
      let core := chopNL rest
      decide (3 ≤ core.length) &&
      decide (core.drop (core.length - 2) = ['/', d]) &&
      !(decide ('\n' ∈ core.take (core.length - 2)))
  | _ => false

/-- The text captured by the group `(.+)` of `^@(.+)/d$` when the pattern
matches: everything strictly between the leading `'@'` and the final
`'/d'` (after discounting an optional trailing newline).  The regex is
greedy, but the decomposition is unique, so greediness is immaterial. -/
def mateGroupOf (h : String) : List Char :=
  match h.data with
  | _ :: rest =>
      let core := chopNL rest
      core.take (core.length - 2)
  | [] => []

/-- `_identify_read_type`: `r1_pattern.match` first, `elif r2_pattern.match`,
else `None`. -/
def identifyReadType (h : String) : Option ReadType :=
  if reMatchMate '1' h then some .R1
  else if reMatchMate '2' h then some .R2
  else none

/-- `_extract_base_name`: group 1 of whichever of the two patterns matches,
else `header[1:]` (the header with its first character removed). -/
def extractBaseName (h : String) : String :=
  if reMatchMate '1' h then ⟨mateGroupOf h⟩
  else if reMatchMate '2' h then ⟨mateGroupOf h⟩
  else ⟨h.data.drop 1⟩

/-- A Python `dict` mapping base names to 4-line records, as an association
list in insertion order. -/
abbrev Dict : Type := List (String × List String)

/-- The keys of a dict, in insertion order (`d.keys()`). -/
def dkeys (d : Dict) : List String :=
  List.map Prod.fst d

/-- `k in d` for a Python dict. -/
def containsKey (d : Dict) (k : String) : Bool :=
  List.any d (fun p => p.1 = k)

/-- `d[k]` (as an `Option`). -/
def dlookup (d : Dict) (k : String) : Option (List String) :=
  Option.map Prod.snd (List.find? (fun p => p.1 = k) d)

/-- `d[k] = v`: overwrite in place if the key exists (a Python dict keeps the
original insertion position), otherwise append. -/
def dinsert (d : Dict) (k : String) (v : List String) : Dict :=
  if containsKey d k then
    List.map (fun p => if p.1 = k then (k, v) else p) d
  else d ++ [(k, v)]

/-- The parser's running state: the two collections `r1_reads` / `r2_reads`
and the three diagnostic counters `valid_reads` / `invalid_reads` /
`malformed_records` of `_parse_fastq_file`. -/
structure PState where
  r1 : Dict
  r2 : Dict
  valid : Nat
  invalid : Nat
  malformed : Nat
deriving DecidableEq

/-- `r1_reads[base_name] = record` / `r2_reads[base_name] = record`. -/
def insertRecord (ty : ReadType) (base : String) (rec : List String) (st : PState) : PState :=
  match ty with
  | .R1 => { st with r1 := dinsert st.r1 base rec }
  | .R2 => { st with r2 := dinsert st.r2 base rec }

/-- One iteration of the `while i < len(lines)` loop of `_parse_fastq_file`,
returning the new state and the new cursor.  Translated branch by branch:
`lines[i].startswith("@")`; `header = lines[i].strip()`;
`read_type = self._identify_read_type(header)`;
`if read_type and i + 3 < len(lines)`; `record = lines[i:i+4]`;
`if len(record) == 4 and record[2].startswith("+")`. -/
def parseStep (lines : List String) (i : Nat) (st : PState) : PState × Nat :=
  let line := lines.getD i ""
  if startsWithChar line '@' then
    let header := pyStrip line
    match identifyReadType header with
    | some ty =>
        if i + 3 < lines.length then
          match (lines.drop i).take 4 with
          | [l1, l2, l3, l4] =>
              if startsWithChar l3 '+' then
                (insertRecord ty (extractBaseName header) [l1, l2, l3, l4]
                  { st with valid := st.valid + 1 }, i + 4)
              else ({ st with malformed := st.malformed + 1 }, i + 1)
          | _ => ({ st with malformed := st.malformed + 1 }, i + 1)
        else ({ st with invalid := st.invalid + 1 }, i + 1)
    | none => ({ st with invalid := st.invalid + 1 }, i + 1)
  else (st, i + 1)

/-- The `while i < len(lines)` loop, with explicit fuel.  Every iteration
advances the cursor by at least 1 (see `parseStep_advance`), so fuel
`lines.length - i` is enough for the loop to reach `i ≥ lines.length`;
`parseLoopF_stable` shows the result is the same for any sufficient fuel. -/
def parseLoopF : Nat → List String → Nat → PState → PState
  | 0, _, _, st => st
  | fuel + 1, lines, i, st =>
      if i < lines.length then
        let s := parseStep lines i st
        parseLoopF fuel lines s.2 s.1
      else st

/-- Initial parser state: empty collections, zeroed counters. -/
def initPState : PState :=
  ⟨[], [], 0, 0, 0⟩

/-- `_parse_fastq_file` on a successfully read list of lines: run the scan
loop from cursor 0 and return `(r1_reads, r2_reads)`. -/
def parseCollections (lines : List String) : Dict × Dict :=
  let st := parseLoopF lines.length lines 0 initPState
  (st.r1, st.r2)

/-- The parser's diagnostic counters for the same run:
`(valid_reads, invalid_reads, malformed_records)`. -/
def parseStats (lines : List String) : Nat × Nat × Nat :=
  let st := parseLoopF lines.length lines 0 initPState
  (st.valid, st.invalid, st.malformed)

/-- `_identify_missing_pairs`: the two dict comprehensions
`{name: reads for name, reads in r1_reads.items() if name not in r2_reads}`
and its mirror image. -/
def identifyMissingPairs (r1 r2 : Dict) : Dict × Dict :=
  (List.filter (fun p => !(containsKey r2 p.1)) r1,
   List.filter (fun p => !(containsKey r1 p.1)) r2)

/-- `_identify_paired_reads`: entries of each side whose key lies in the key
intersection, each side keeping its own record.  The source iterates over the
Python set `paired_names` (whose order is unspecified); the entry sets are the
ones below, kept here in each source dict's order.  Every consumer of these
dicts (the writer) sorts keys, so the order is immaterial. -/
def identifyPairedReads (r1 r2 : Dict) : Dict × Dict :=
  (List.filter (fun p => containsKey r2 p.1) r1,
   List.filter (fun p => containsKey r1 p.1) r2)

/-- Python's `<=` on `str`: lexicographic by code point.  Modelled on the
character lists (`Char`'s order is code-point order, and `List`'s order is
lexicographic), which is exactly how Python compares strings. -/
def keyLe (a b : String) : Bool :=
  decide (a.data < b.data) || decide (a = b)

/-- Insert a key into an already sorted list of keys (one step of the sort
performed by Python's `sorted`). -/
def sIns (x : String) : List String → List String
  | [] => [x]
  | y :: ys => if keyLe x y then x :: y :: ys else y :: sIns x ys

/-- A sort of the key list by `keyLe`; since the writer's keys are distinct,
any sort agreeing with Python's comparison produces `sorted(reads.keys())`. -/
def sSort : List String → List String
  | [] => []
  | x :: xs => sIns x (sSort xs)

/-- `sorted(reads.keys())`. -/
def sortedKeys (d : Dict) : List String :=
  sSort (dkeys d)

/-- The consecutive 4-line blocks emitted by `_write_fastq_file`: one record
per key, in sorted key order. -/
def blocksOf (d : Dict) : List (List String) :=
  List.map (fun k => (dlookup d k).getD []) (sortedKeys d)

/-- `_write_fastq_file`'s output as a list of lines:
`for base_name in sorted(reads.keys()): f.writelines(reads[base_name])`.
The file's content is the concatenation of these lines. -/
def writeLines (d : Dict) : List String :=
  (blocksOf d).flatten

/-- Number of occurrences of `pat` as a contiguous run of lines inside `l`. -/
def occCount (pat l : List String) : Nat :=
  List.countP (fun o => decide ((l.drop o).take pat.length = pat)) (List.range (l.length + 1))

/-- The four partitions produced for one input, in the order the orchestrator
writes them: missing-first, missing-second, paired-first, paired-second. -/
def partsList (lines : List String) : List Dict :=
  let pr := parseCollections lines
  let m := identifyMissingPairs pr.1 pr.2
  let p := identifyPairedReads pr.1 pr.2
  [m.1, m.2, p.1, p.2]

/-- The scan step as the specification words it, case by case: a line not
starting with `'@'` advances by 1; an unclassifiable header advances by 1;
a classified header with fewer than 4 lines remaining advances by 1; a
classified header whose 3rd line from the cursor does not start with `'+'`
advances by only 1; otherwise the 4-line block is inserted into the
collection of its mate type, keyed by base name, and the cursor advances
by 4.  Compared against `parseStep` (the source translation) in the C1
theorem. -/
def claimStep (lines : List String) (i : Nat) (st : PState) : PState × Nat :=
  let line := lines.getD i ""
  if startsWithChar line '@' = false then (st, i + 1)
  else
    let header := pyStrip line
    match identifyReadType header with
    | none => ({ st with invalid := st.invalid + 1 }, i + 1)
    | some ty =>
        if lines.length - i < 4 then ({ st with invalid := st.invalid + 1 }, i + 1)
        else if startsWithChar (lines.getD (i + 2) "") '+' = false then
          ({ st with malformed := st.malformed + 1 }, i + 1)
        else
          (insertRecord ty (extractBaseName header)
            [lines.getD i "", lines.getD (i + 1) "", lines.getD (i + 2) "", lines.getD (i + 3) ""]
            { st with valid := st.valid + 1 }, i + 4)

/-- The shape the C2 claim ascribes to a FIRST/SECOND header: exactly the
marker, a non-empty identifier, and the slash-digit suffix, with no
trailing characters. -/
def claimShape (d : Char) (h : String) : Prop :=
  ∃ m : List Char, m ≠ [] ∧ h.data = '@' :: (m ++ ['/', d])

/-- What the compiled pattern `^@(.+)/d$` actually accepts under Python
`re` semantics: the identifier is one or more non-newline characters, and
the match may leave a single final newline unconsumed (a `$` quirk). -/
def mateShape (d : Char) (h : String) : Prop :=
  ∃ m t : List Char, m ≠ [] ∧ '\n' ∉ m ∧ (t = [] ∨ t = ['\n']) ∧
    h.data = '@' :: (m ++ '/' :: d :: t)

/-- An entry `(k, rec)` of one of the parser's collections, as the parser
creates them: a 4-line record whose stripped header line classifies to the
collection's mate type and yields `k` as base name. -/
def goodRec (ty : ReadType) (p : String × List String) : Prop :=
  p.2.length = 4 ∧
  identifyReadType (pyStrip (p.2.headD "")) = some ty ∧
  extractBaseName (pyStrip (p.2.headD "")) = p.1

/-- Invariant of the parse loop state: both collections have distinct keys
and every entry is a well-formed record of its mate type. -/
def InvState (st : PState) : Prop :=
  (dkeys st.r1).Nodup ∧ (dkeys st.r2).Nodup ∧
  (∀ p ∈ st.r1, goodRec .R1 p) ∧ (∀ p ∈ st.r2, goodRec .R2 p)

/-- Why a run of `detangle` fails, following the spec's taxonomy (§7):
`notFound` is `FileNotFoundError`, `invalidInput` is `ValueError` (with the
three reasons the source distinguishes by message), `ioFailure` is
`OSError`. -/
inductive InvalidReason where
  | notAFile
  | emptyFile
  | noValidReads
deriving DecidableEq, Repr

inductive DError where
  | notFound
  | invalidInput (reason : InvalidReason)
  | ioFailure
deriving DecidableEq, Repr

/-- Filesystem actions observable during the write phase: an attempt to
write an output file, and an `unlink` during cleanup. -/
inductive FsAction where
  | fsWrite (f : String)
  | fsUnlink (f : String)
deriving DecidableEq, Repr

/-- The four output file names, in the order `detangle` writes them:
missing-first, missing-second, paired-first, paired-second. -/
def outputNames (pfx : String) : List String :=
  [pfx ++ "_R1_ordered_with_missing_R2.fastq",
   pfx ++ "_R2_ordered_with_missing_R1.fastq",
   pfx ++ "_R1_paired.fastq",
   pfx ++ "_R2_paired.fastq"]

/-- The write phase of `detangle`: try each file in order, appending each
success to `output_files`; on the first failure, stop, unlink every file in
`output_files` (each unlink attempted, failures swallowed), and surface an
`OSError`.  Returns the outcome, the list of attempted filesystem actions,
and the output files of this run still on disk at the end (a failed unlink
leaves its file behind).  `wOk f` tells whether writing `f` succeeds, and
`uOk f` whether unlinking `f` succeeds. -/
def writeLoop (wOk uOk : String → Bool) (written : List String) :
    List String → Except DError Unit × List FsAction × List String
  | [] => (.ok (), [], written)
  | f :: rest =>
      if wOk f then
        let r := writeLoop wOk uOk (written ++ [f]) rest
        (r.1, .fsWrite f :: r.2.1, r.2.2)
      else
        (.error .ioFailure,
         .fsWrite f :: List.map FsAction.fsUnlink written,
         List.filter (fun g => !(uOk g)) written)

/-- The environment `detangle` runs against: the `stat` facts the validation
phase consults, whether reading the input succeeds and the lines it yields,
and the write/unlink success oracles of the write phase. -/
structure Env where
  pathExists : Bool
  isFile : Bool
  size : Nat
  readOk : Bool
  lines : List String
  wOk : String → Bool
  uOk : String → Bool

/-- `detangle(input_file, output_prefix)`: validation in source order
(existence, regular file, non-zero size), then parsing (an unreadable input
is an `OSError`), the no-valid-reads check, and the write phase.  The result
is the raised condition (or success), the filesystem actions performed, and
the output files of this run remaining on disk. -/
def detangle (env : Env) (pfx : String) :
    Except DError Unit × List FsAction × List String :=
  if env.pathExists = false then (.error .notFound, [], [])
  else if env.isFile = false then (.error (.invalidInput .notAFile), [], [])
  else if env.size = 0 then (.error (.invalidInput .emptyFile), [], [])
  else if env.readOk = false then (.error .ioFailure, [], [])
  else
    let pr := parseCollections env.lines
    if pr.1.isEmpty && pr.2.isEmpty then
      (.error (.invalidInput .noValidReads), [], [])
    else writeLoop env.wOk env.uOk [] (outputNames pfx)

/-- `_parse_fastq_file` including its `try`/`except`: the argument is the
outcome of `open` + `readlines` (reading the input may fail); any such
failure is re-raised as `OSError` ("Error reading input file"), and the scan
itself never fails. -/
def parseFastqFile (input : Except Unit (List String)) :
    Except DError (Dict × Dict) :=
  match input with
  | .ok lines => .ok (parseCollections lines)
  | .error _ => .error .ioFailure

/-- Input of the C4 counterexample: three accepted first-mate records `a`,
`b`, `c`, where `c`'s four lines also arise as the overlap of `a`'s record
with `b`'s header in sorted output order. -/
def exLines : List String :=
  ["@a/1\n", "@c/1\n", "+\n", "+q\n",
   "@b/1\n", "s\n", "+\n", "q\n",
   "@c/1\n", "+\n", "+q\n", "@b/1\n"]

/-- The record the parser accepts for base name `c` in `exLines`. -/
def cRec : List String := ["@c/1\n", "+\n", "+q\n", "@b/1\n"]

/-- `keyLe` as a relation, for `List.Sorted`. -/
def keyLeP (a b : String) : Prop := keyLe a b = true

/-- Strict code-point order on strings (`a` strictly before `b` in Python's
`sorted`). -/
def keyLtP (a b : String) : Prop := a.data < b.data

theorem string_eq_of_data_eq {a b : String} (h : a.data = b.data) : a = b := by
  cases a
  cases b
  exact congrArg String.mk h

theorem keyLe_total (a b : String) : keyLe a b = true ∨ keyLe b a = true := by
  unfold keyLe
  rcases lt_trichotomy a.data b.data with h | h | h
  · left; simp [h]
  · left; simp [string_eq_of_data_eq h]
  · right; simp [h]

theorem keyLe_trans (a b c : String) (h1 : keyLe a b = true) (h2 : keyLe b c = true) :
    keyLe a c = true := by
  unfold keyLe at h1 h2 ⊢
  simp only [Bool.or_eq_true, decide_eq_true_eq] at h1 h2 ⊢
  rcases h1 with h1 | h1 <;> rcases h2 with h2 | h2
  · exact Or.inl (lt_trans h1 h2)
  · exact Or.inl (h2 ▸ h1)
  · exact Or.inl (h1 ▸ h2)
  · exact Or.inr (h1.trans h2)

theorem keyLe_antisymm (a b : String) (h1 : keyLe a b = true) (h2 : keyLe b a = true) :
    a = b := by
  unfold keyLe at h1 h2
  simp only [Bool.or_eq_true, decide_eq_true_eq] at h1 h2
  rcases h1 with h1 | h1
  · rcases h2 with h2 | h2
    · exact absurd (lt_trans h1 h2) (lt_irrefl _)
    · exact h2.symm
  · exact h1

instance : IsAntisymm String keyLeP :=
  ⟨fun a b h1 h2 => keyLe_antisymm a b h1 h2⟩

theorem sIns_perm (x : String) (l : List String) : List.Perm (sIns x l) (x :: l) := by
  induction l with
  | nil => simp [sIns]
  | cons y ys ih =>
    rw [sIns]
    by_cases h : keyLe x y = true
    · rw [if_pos h]
    · rw [if_neg h]
      exact (ih.cons y).trans (List.Perm.swap x y ys)

theorem sSort_perm (l : List String) : List.Perm (sSort l) l := by
  induction l with
  | nil => simp [sSort]
  | cons x xs ih =>
    rw [sSort]
    exact (sIns_perm x (sSort xs)).trans (ih.cons x)

theorem mem_sIns {b x : String} {l : List String} (h : b ∈ sIns x l) : b = x ∨ b ∈ l := by
  have := (sIns_perm x l).mem_iff.mp h
  simpa using this

theorem sIns_sorted (x : String) (l : List String) (h : List.Sorted keyLeP l) :
    List.Sorted keyLeP (sIns x l) := by
  induction l with
  | nil => simp [sIns, keyLeP]
  | cons y ys ih =>
    rw [sIns]
    rw [List.sorted_cons] at h
    by_cases hxy : keyLe x y = true
    · rw [if_pos hxy, List.sorted_cons]
      refine ⟨?_, (List.sorted_cons).mpr h⟩
      intro b hb
      rcases List.mem_cons.mp hb with rfl | hb
      · exact hxy
      · exact keyLe_trans x y b hxy (h.1 b hb)
    · rw [if_neg hxy, List.sorted_cons]
      refine ⟨?_, ih h.2⟩
      intro b hb
      rcases mem_sIns hb with rfl | hb
      · rcases keyLe_total y b with hy | hy
        · exact hy
        · exact absurd hy hxy
      · exact h.1 b hb

theorem sSort_sorted (l : List String) : List.Sorted keyLeP (sSort l) := by
  induction l with
  | nil => simp [sSort]
  | cons x xs ih =>
    rw [sSort]
    exact sIns_sorted x (sSort xs) ih

theorem sSort_eq_of_perm {l1 l2 : List String} (h : List.Perm l1 l2) :
    sSort l1 = sSort l2 :=
  List.eq_of_perm_of_sorted
    ((sSort_perm l1).trans (h.trans (sSort_perm l2).symm))
    (sSort_sorted l1) (sSort_sorted l2)

theorem sorted_strict_of_nodup {l : List String} (hs : List.Sorted keyLeP l)
    (hn : l.Nodup) : List.Sorted keyLtP l := by
  have := List.Pairwise.and hs hn
  refine this.imp ?_
  rintro a b ⟨hab, hne⟩
  unfold keyLeP keyLe at hab
  simp only [Bool.or_eq_true, decide_eq_true_eq] at hab
  rcases hab with hab | hab
  · exact hab
  · exact absurd hab hne

theorem containsKey_iff (d : Dict) (k : String) :
    containsKey d k = true ↔ k ∈ dkeys d := by
  unfold containsKey dkeys
  rw [List.any_eq_true]
  constructor
  · rintro ⟨p, hp, hpk⟩
    simp only [decide_eq_true_eq] at hpk
    exact List.mem_map.mpr ⟨p, hp, hpk⟩
  · intro h
    rcases List.mem_map.mp h with ⟨p, hp, hpk⟩
    exact ⟨p, hp, by simp [hpk]⟩

theorem dkeys_dinsert (d : Dict) (k : String) (v : List String) :
    dkeys (dinsert d k v) = if containsKey d k then dkeys d else dkeys d ++ [k] := by
  unfold dinsert
  by_cases h : containsKey d k = true
  · rw [if_pos h, if_pos h]
    unfold dkeys
    rw [List.map_map]
    refine List.map_congr_left ?_
    intro p hp
    by_cases hpk : p.1 = k <;> simp [hpk]
  · rw [if_neg h, if_neg h]
    unfold dkeys
    simp

theorem nodup_dkeys_dinsert (d : Dict) (k : String) (v : List String)
    (h : (dkeys d).Nodup) : (dkeys (dinsert d k v)).Nodup := by
  rw [dkeys_dinsert]
  by_cases hc : containsKey d k = true
  · rwa [if_pos hc]
  · rw [if_neg hc]
    have hk : k ∉ dkeys d := fun hm =>
      hc ((containsKey_iff d k).mpr hm)
    simp [List.nodup_append, h, hk]

theorem mem_dinsert {p : String × List String} {d : Dict} {k : String}
    {v : List String} (h : p ∈ dinsert d k v) : p = (k, v) ∨ p ∈ d := by
  unfold dinsert at h
  by_cases hc : containsKey d k = true
  · rw [if_pos hc] at h
    rcases List.mem_map.mp h with ⟨q, hq, hfq⟩
    by_cases hqk : q.1 = k
    · left
      rw [← hfq]
      simp [hqk]
    · right
      rw [← hfq]
      simpa [hqk] using hq
  · rw [if_neg hc] at h
    rcases List.mem_append.mp h with h | h
    · exact Or.inr h
    · exact Or.inl (by simpa using h)

theorem mem_dkeys (d : Dict) (k : String) : k ∈ dkeys d ↔ ∃ v, (k, v) ∈ d := by
  unfold dkeys
  constructor
  · intro h
    rcases List.mem_map.mp h with ⟨p, hp, hpk⟩
    exact ⟨p.2, by rwa [show (k, p.2) = p from by rw [← hpk]]⟩
  · rintro ⟨v, hv⟩
    exact List.mem_map.mpr ⟨(k, v), hv, rfl⟩

theorem dlookup_mem {d : Dict} {k : String} {v : List String}
    (h : dlookup d k = some v) : (k, v) ∈ d := by
  unfold dlookup at h
  rcases Option.map_eq_some'.mp h with ⟨p, hp, hpv⟩
  have hmem := List.mem_of_find?_eq_some hp
  have hpred := List.find?_some hp
  simp only [decide_eq_true_eq] at hpred
  rwa [show (k, v) = p from by rw [← hpred, ← hpv]]

theorem dlookup_eq_some_of_mem {d : Dict} {k : String} {v : List String}
    (hnd : (dkeys d).Nodup) (h : (k, v) ∈ d) : dlookup d k = some v := by
  induction d with
  | nil => cases h
  | cons q d' ih =>
    unfold dkeys at hnd
    rw [List.map_cons, List.nodup_cons] at hnd
    by_cases hq : q.1 = k
    · have hqv : q = (k, v) := by
        rcases List.mem_cons.mp h with h | h
        · exact h.symm
        · have hk2 : k ∈ List.map Prod.fst d' := List.mem_map.mpr ⟨(k, v), h, rfl⟩
          rw [← hq] at hk2
          exact absurd hk2 hnd.1
      unfold dlookup
      rw [List.find?_cons_of_pos _ (by simp [hq])]
      simp [hqv]
    · have hmem : (k, v) ∈ d' := by
        rcases List.mem_cons.mp h with h | h
        · exact absurd (congrArg Prod.fst h.symm) hq
        · exact h
      unfold dlookup
      rw [List.find?_cons_of_neg _ (by simp [hq])]
      exact ih hnd.2 hmem

theorem dlookup_eq_none_of_not_contains {d : Dict} {k : String}
    (h : containsKey d k = false) : dlookup d k = none := by
  unfold dlookup
  rw [List.find?_eq_none.mpr]
  · rfl
  · intro p hp
    unfold containsKey at h
    have := List.any_eq_false.mp h p hp
    simpa using this

theorem exists_dlookup_of_mem_dkeys {d : Dict} {k : String} (h : k ∈ dkeys d) :
    ∃ v, dlookup d k = some v := by
  induction d with
  | nil => cases h
  | cons q d' ih =>
    by_cases hq : q.1 = k
    · exact ⟨q.2, by unfold dlookup; rw [List.find?_cons_of_pos _ (by simp [hq])]; rfl⟩
    · have hmem : k ∈ dkeys d' := by
        unfold dkeys at h ⊢
        rcases List.mem_cons.mp h with h | h
        · exact absurd h.symm hq
        · exact h
      rcases ih hmem with ⟨v, hv⟩
      refine ⟨v, ?_⟩
      unfold dlookup at hv ⊢
      rwa [List.find?_cons_of_neg _ (by simp [hq])]

theorem dinsert_dlookup_self (d : Dict) (k : String) (v : List String) :
    dlookup (dinsert d k v) k = some v := by
  unfold dinsert
  by_cases hc : containsKey d k = true
  · rw [if_pos hc]
    induction d with
    | nil => simp [containsKey] at hc
    | cons q d' ih =>
      by_cases hq : q.1 = k
      · unfold dlookup
        rw [List.map_cons, if_pos hq, List.find?_cons_of_pos _ (by simp)]
        rfl
      · unfold dlookup
        rw [List.map_cons, if_neg hq, List.find?_cons_of_neg _ (by simp [hq])]
        have hc' : containsKey d' k = true := by
          unfold containsKey at hc ⊢
          rcases List.any_eq_true.mp hc with ⟨p, hp, hpk⟩
          rcases List.mem_cons.mp hp with h | h
          · simp only [decide_eq_true_eq] at hpk
            exact absurd (h ▸ hpk) hq
          · exact List.any_eq_true.mpr ⟨p, h, hpk⟩
        exact ih hc'
  · rw [if_neg hc]
    have hcf : containsKey d k = false := Bool.eq_false_iff.mpr hc
    clear hc
    induction d with
    | nil =>
      unfold dlookup
      rw [List.nil_append, List.find?_cons_of_pos _ (by simp)]
      rfl
    | cons q d' ih =>
      unfold containsKey at hcf
      rw [List.any_cons] at hcf
      rcases Bool.or_eq_false_iff.mp hcf with ⟨hq, hc2⟩
      unfold dlookup
      rw [List.cons_append, List.find?_cons_of_neg _ (by simpa using hq)]
      exact ih hc2

theorem drop_take_four (l : List String) (i : Nat) (h : i + 3 < l.length) :
    (l.drop i).take 4 = [l.getD i "", l.getD (i + 1) "", l.getD (i + 2) "", l.getD (i + 3) ""] := by
  induction i generalizing l with
  | zero =>
    match l, h with
    | a :: b :: c :: d :: t, _ => simp [List.getD]
  | succ n ih =>
    match l, h with
    | a :: t, h =>
      have ht : n + 3 < t.length := by
        simp only [List.length_cons] at h
        omega
      simpa [List.getD] using ih t ht

theorem parseStep_advance (lines : List String) (i : Nat) (st : PState) :
    i < (parseStep lines i st).2 ∧ (parseStep lines i st).2 ≤ i + 4 := by
  unfold parseStep
  dsimp only
  split
  · split
    · split
      · split
        · split <;> simp
        · simp
      · simp
    · simp
  · simp

theorem parseLoopF_stable (lines : List String) : ∀ (f1 f2 i : Nat) (st : PState),
    lines.length - i ≤ f1 → lines.length - i ≤ f2 →
    parseLoopF f1 lines i st = parseLoopF f2 lines i st := by
  intro f1
  induction f1 with
  | zero =>
    intro f2 i st h1 h2
    have hi : ¬ i < lines.length := by omega
    cases f2 with
    | zero => rfl
    | succ g => simp [parseLoopF, hi]
  | succ g1 ih =>
    intro f2 i st h1 h2
    by_cases hi : i < lines.length
    · cases f2 with
      | zero => omega
      | succ g2 =>
        simp only [parseLoopF, hi, if_true]
        have hadv := parseStep_advance lines i st
        exact ih g2 (parseStep lines i st).2 (parseStep lines i st).1
          (by omega) (by omega)
    · cases f2 with
      | zero => simp [parseLoopF, hi]
      | succ g2 => simp [parseLoopF, hi]

theorem InvState_init : InvState initPState := by
  refine ⟨?_, ?_, ?_, ?_⟩ <;> simp [initPState, dkeys]

theorem goodRec_insert_preserved {ty2 : ReadType} {d : Dict} {k : String}
    {v : List String} (hall : ∀ p ∈ d, goodRec ty2 p) (hg : goodRec ty2 (k, v)) :
    ∀ p ∈ dinsert d k v, goodRec ty2 p := by
  intro p hp
  rcases mem_dinsert hp with rfl | hp
  · exact hg
  · exact hall p hp

theorem parseStep_inv (lines : List String) (i : Nat) (st : PState)
    (h : InvState st) : InvState (parseStep lines i st).1 := by
  unfold parseStep
  dsimp only
  split
  · rename_i hAt
    split
    · rename_i ty hty
      split
      · rename_i hlen
        split
        · rename_i l1 l2 l3 l4 hmatch
          split
          · rename_i hplus
            have hfour := drop_take_four lines i hlen
            rw [hmatch] at hfour
            have hl1 : l1 = lines.getD i "" := by
              injection hfour with e1 rest
            have hg : goodRec ty
                (extractBaseName (pyStrip (lines.getD i "")), [l1, l2, l3, l4]) := by
              refine ⟨by simp, ?_, ?_⟩
              · simpa [hl1] using hty
              · simp [hl1]
            rcases h with ⟨hn1, hn2, ha1, ha2⟩
            cases ty with
            | R1 =>
              exact ⟨nodup_dkeys_dinsert _ _ _ hn1, hn2,
                goodRec_insert_preserved ha1 hg, ha2⟩
            | R2 =>
              exact ⟨hn1, nodup_dkeys_dinsert _ _ _ hn2, ha1,
                goodRec_insert_preserved ha2 hg⟩
          · exact h
        · exact h
      · exact h
    · exact h
  · exact h

theorem parseLoopF_inv (fuel : Nat) (lines : List String) (i : Nat) (st : PState)
    (h : InvState st) : InvState (parseLoopF fuel lines i st) := by
  induction fuel generalizing i st with
  | zero => exact h
  | succ g ih =>
    rw [parseLoopF]
    split
    · exact ih _ _ (parseStep_inv lines i st h)
    · exact h

theorem parseCollections_inv (lines : List String) :
    (dkeys (parseCollections lines).1).Nodup ∧ (dkeys (parseCollections lines).2).Nodup ∧
    (∀ p ∈ (parseCollections lines).1, goodRec .R1 p) ∧
    (∀ p ∈ (parseCollections lines).2, goodRec .R2 p) := by
  have := parseLoopF_inv lines.length lines 0 initPState InvState_init
  exact this

theorem parts_inv (lines : List String) (part : Dict) (hp : part ∈ partsList lines) :
    (dkeys part).Nodup ∧ ∃ ty, ∀ p ∈ part, goodRec ty p := by
  rcases parseCollections_inv lines with ⟨hn1, hn2, ha1, ha2⟩
  have sub : ∀ (d : Dict) (q : String × List String → Bool),
      (dkeys (List.filter q d)).Nodup → True := fun _ _ _ => trivial
  unfold partsList identifyMissingPairs identifyPairedReads at hp
  simp only [List.mem_cons, List.not_mem_nil, or_false] at hp
  have nodup_filter : ∀ (d : Dict) (q : String × List String → Bool),
      (dkeys d).Nodup → (dkeys (List.filter q d)).Nodup := by
    intro d q hd
    exact List.Nodup.sublist (List.Sublist.map Prod.fst (List.filter_sublist d)) hd
  have good_filter : ∀ (d : Dict) (q : String × List String → Bool) (ty : ReadType),
      (∀ p ∈ d, goodRec ty p) → ∀ p ∈ List.filter q d, goodRec ty p := by
    intro d q ty hall p hp
    exact hall p (List.mem_of_mem_filter hp)
  rcases hp with rfl | rfl | rfl | rfl
  · exact ⟨nodup_filter _ _ hn1, .R1, good_filter _ _ _ ha1⟩
  · exact ⟨nodup_filter _ _ hn2, .R2, good_filter _ _ _ ha2⟩
  · exact ⟨nodup_filter _ _ hn1, .R1, good_filter _ _ _ ha1⟩
  · exact ⟨nodup_filter _ _ hn2, .R2, good_filter _ _ _ ha2⟩

theorem chop_cases (rest : List Char) :
    (rest.getLast? = some '\n' ∧ rest = chopNL rest ++ ['\n']) ∨
    (rest.getLast? ≠ some '\n' ∧ chopNL rest = rest) := by
  rcases List.eq_nil_or_concat rest with rfl | ⟨bs, a, rfl⟩
  · right
    simp [chopNL]
  · simp only [List.concat_eq_append]
    by_cases ha : a = '\n'
    · subst ha
      left
      refine ⟨List.getLast?_concat bs, ?_⟩
      rw [chopNL, if_pos (List.getLast?_concat bs), List.dropLast_concat]
    · right
      have hne : (bs ++ [a]).getLast? ≠ some '\n' := by
        rw [List.getLast?_concat]
        simp [ha]
      exact ⟨hne, by rw [chopNL, if_neg hne]⟩

theorem core_of_decomp {rest m : List Char} {d : Char} {t : List Char}
    (hd : d ≠ '\n') (ht : t = [] ∨ t = ['\n'])
    (heq : rest = m ++ '/' :: d :: t) : chopNL rest = m ++ ['/', d] := by
  rcases ht with rfl | rfl
  · have hl : rest.getLast? = some d := by
      rw [heq, show m ++ '/' :: d :: ([] : List Char) = (m ++ ['/']) ++ [d] from by simp]
      exact List.getLast?_concat _
    rw [chopNL, if_neg (by rw [hl]; simp [hd]), heq]
  · have hshape : rest = (m ++ ['/', d]) ++ ['\n'] := by
      rw [heq]
      simp
    have hl : rest.getLast? = some '\n' := by
      rw [hshape]
      exact List.getLast?_concat _
    rw [chopNL, if_pos hl, hshape, List.dropLast_concat]

theorem reMatchMate_true_iff (d : Char) (hd : d ≠ '\n') (s : String) :
    reMatchMate d s = true ↔ mateShape d s := by
  constructor
  · intro hm
    unfold reMatchMate at hm
    split at hm
    · rename_i rest heq
      rw [Bool.and_eq_true, Bool.and_eq_true] at hm
      rcases hm with ⟨⟨hlen, hdrop⟩, hmem⟩
      rw [decide_eq_true_eq] at hlen hdrop
      rw [Bool.not_eq_true', decide_eq_false_iff_not] at hmem
      set m := (chopNL rest).take ((chopNL rest).length - 2) with hmdef
      have hcore : chopNL rest = m ++ ['/', d] := by
        rw [← hdrop, hmdef]
        exact (List.take_append_drop _ _).symm
      have hmne : m ≠ [] := by
        intro hnil
        have hlm := congrArg List.length hnil
        rw [hmdef, List.length_take] at hlm
        simp at hlm
        omega
      rcases chop_cases rest with ⟨_, hrest⟩ | ⟨_, hrest⟩
      · refine ⟨m, ['\n'], hmne, hmem, Or.inr rfl, ?_⟩
        rw [heq, hrest, hcore]
        simp
      · refine ⟨m, [], hmne, hmem, Or.inl rfl, ?_⟩
        rw [heq, ← hrest, hcore]
    · cases hm
  · rintro ⟨m, t, hm0, hmn, ht, heq⟩
    unfold reMatchMate
    split
    · rename_i rest heq2
      rw [heq] at heq2
      have hrest : rest = m ++ '/' :: d :: t := by
        simp only [List.cons.injEq, true_and] at heq2
        exact heq2.symm
      have hcore : chopNL rest = m ++ ['/', d] := core_of_decomp hd ht hrest
      have hml : 0 < m.length := List.length_pos.mpr hm0
      rw [hcore]
      have hlen2 : (m ++ ['/', d]).length - 2 = m.length := by
        simp
      rw [Bool.and_eq_true, Bool.and_eq_true]
      refine ⟨⟨?_, ?_⟩, ?_⟩
      · rw [decide_eq_true_eq]
        simp only [List.length_append, List.length_cons, List.length_nil]
        omega
      · rw [decide_eq_true_eq, hlen2]
        exact List.drop_left m ['/', d]
      · rw [Bool.not_eq_true', decide_eq_false_iff_not, hlen2, List.take_left]
        exact hmn
    · rename_i hno
      exact absurd heq (by intro hcontra; exact hno (m ++ '/' :: d :: t) hcontra)

theorem reMatchMate_not_both (s : String) (h1 : reMatchMate '1' s = true)
    (h2 : reMatchMate '2' s = true) : False := by
  unfold reMatchMate at h1 h2
  split at h1
  · rename_i rest heq
    split at h2
    · rename_i rest2 heq2
      rw [heq] at heq2
      have hr : rest = rest2 := by
        simp only [List.cons.injEq, true_and] at heq2
        exact heq2
      subst hr
      rw [Bool.and_eq_true, Bool.and_eq_true] at h1 h2
      rcases h1 with ⟨⟨_, hd1⟩, _⟩
      rcases h2 with ⟨⟨_, hd2⟩, _⟩
      rw [decide_eq_true_eq] at hd1 hd2
      rw [hd1] at hd2
      simp at hd2
    · cases h2
  · cases h1

/-- C2 (amended): for every header string `h`, `classify(h)` is exactly one of
FIRST, SECOND, UNCLASSIFIED and depends on `h` alone; `classify(h) = FIRST`
iff `h` is `'@'`, then a non-empty identifier of non-newline characters, then
`/1`, followed by nothing or by a single final newline (Python's `$` also
matches just before a terminal newline); SECOND likewise with `/2`; anything
else is UNCLASSIFIED. -/
theorem c2_classify_amended (h : String) :
    (identifyReadType h = some .R1 ↔ mateShape '1' h) ∧
    (identifyReadType h = some .R2 ↔ mateShape '2' h) ∧
    (identifyReadType h = none ↔ ¬ mateShape '1' h ∧ ¬ mateShape '2' h) := by
  have i1 := reMatchMate_true_iff '1' (by decide) h
  have i2 := reMatchMate_true_iff '2' (by decide) h
  unfold identifyReadType
  by_cases h1 : reMatchMate '1' h = true
  · rw [if_pos h1]
    refine ⟨⟨fun _ => i1.mp h1, fun _ => rfl⟩, ⟨?_, ?_⟩, ⟨?_, ?_⟩⟩
    · intro hx
      exact absurd hx (by decide)
    · intro hx
      exact (reMatchMate_not_both h h1 (i2.mpr hx)).elim
    · intro hx
      exact absurd hx (by decide)
    · rintro ⟨hn1, _⟩
      exact absurd (i1.mp h1) hn1
  · by_cases h2 : reMatchMate '2' h = true
    · rw [if_neg h1, if_pos h2]
      refine ⟨⟨?_, ?_⟩, ⟨fun _ => i2.mp h2, fun _ => rfl⟩, ⟨?_, ?_⟩⟩
      · intro hx
        exact absurd hx (by decide)
      · intro hx
        exact absurd (i1.mpr hx) h1
      · intro hx
        exact absurd hx (by decide)
      · rintro ⟨_, hn2⟩
        exact absurd (i2.mp h2) hn2
    · rw [if_neg h1, if_neg h2]
      refine ⟨⟨?_, ?_⟩, ⟨?_, ?_⟩, fun _ => ⟨?_, ?_⟩, fun _ => rfl⟩
      · intro hx
        exact absurd hx (by decide)
      · intro hx
        exact absurd (i1.mpr hx) h1
      · intro hx
        exact absurd hx (by decide)
      · intro hx
        exact absurd (i2.mpr hx) h2
      · intro hx
        exact absurd (i1.mpr hx) h1
      · intro hx
        exact absurd (i2.mpr hx) h2

/-- C2 counterexample: the claim's "no trailing characters" is violated —
`"@a/1\n"` has a trailing newline yet classifies as FIRST (Python's `$`
matches before a terminal newline); conversely, `"@a\nb/1"` has the claimed
shape marker + non-empty identifier + `/1` yet classifies as UNCLASSIFIED
(`.` does not match a newline inside the identifier). -/
theorem c2_classify_counterexample :
    (identifyReadType "@a/1\n" = some .R1 ∧ ¬ claimShape '1' "@a/1\n") ∧
    (identifyReadType "@a\nb/1" = none ∧ claimShape '1' "@a\nb/1") := by
  refine ⟨⟨by decide, ?_⟩, by decide, ⟨['a', '\n', 'b'], by decide, by decide⟩⟩
  rintro ⟨m, _, heq⟩
  have hlast := congrArg List.getLast? heq
  rw [show '@' :: (m ++ ['/', '1']) = (('@' :: m) ++ ['/']) ++ ['1'] from by simp] at hlast
  rw [List.getLast?_concat] at hlast
  rw [show (("@a/1\n" : String).data).getLast? = some '\n' from by decide] at hlast
  exact absurd (Option.some.inj hlast) (by decide)

/-- C1: the parser scans with a cursor and at each position behaves exactly as
claimed: a line not starting with `'@'` advances by 1; an `'@'` line with an
unclassifiable header advances by 1; a classified header with fewer than 4
lines remaining advances by 1 (incomplete record); a classified header whose
3rd line from the cursor does not start with `'+'` advances by only 1
(malformed record, re-scan); otherwise the 4-line block is inserted into its
mate type's collection keyed by base name — overwriting any earlier entry for
that key, as the second conjunct states — and the cursor advances by 4. -/
theorem c1_parse_step_cases :
    (∀ (lines : List String) (i : Nat) (st : PState),
        parseStep lines i st = claimStep lines i st) ∧
    (∀ (d : Dict) (k : String) (v : List String),
        dlookup (dinsert d k v) k = some v) := by
  refine ⟨?_, dinsert_dlookup_self⟩
  intro lines i st
  unfold parseStep claimStep
  dsimp only
  by_cases hAt : startsWithChar (lines.getD i "") '@' = true
  · rw [if_pos hAt, if_neg (by rw [hAt]; decide)]
    cases hty : identifyReadType (pyStrip (lines.getD i "")) with
    | none => rfl
    | some ty =>
      dsimp only
      by_cases hlen : i + 3 < lines.length
      · have hnlt : ¬ (lines.length - i < 4) := by omega
        rw [drop_take_four lines i hlen, if_pos hlen, if_neg hnlt]
        dsimp only
        by_cases hplus : startsWithChar (lines.getD (i + 2) "") '+' = true
        · rw [if_pos hplus, if_neg (by rw [hplus]; decide)]
        · rw [if_neg hplus, if_pos (Bool.eq_false_iff.mpr hplus)]
      · have hge : lines.length - i < 4 := by omega
        rw [if_neg hlen, if_pos hge]
  · rw [if_neg hAt, if_pos (Bool.eq_false_iff.mpr hAt)]

/-- C10: every branch of the scan loop advances the cursor by at least 1 and
by at most 4, so the distance to the end of input strictly decreases; the
fuelled loop is a total function whose value is independent of the fuel as
soon as the fuel covers that distance. -/
theorem c10_parser_terminates (lines : List String) (i : Nat) (st : PState) :
    (i < lines.length →
      i < (parseStep lines i st).2 ∧ (parseStep lines i st).2 ≤ i + 4) ∧
    (∀ f1 f2, lines.length - i ≤ f1 → lines.length - i ≤ f2 →
      parseLoopF f1 lines i st = parseLoopF f2 lines i st) := by
  exact ⟨fun _ => parseStep_advance lines i st,
    fun f1 f2 h1 h2 => parseLoopF_stable lines f1 f2 i st h1 h2⟩

/-- Witness for C10 at a concrete input. -/
theorem c10_parser_terminates_witness :
    0 < (["@x/1\n", "s\n", "+\n", "q\n"] : List String).length ∧
    0 < (parseStep ["@x/1\n", "s\n", "+\n", "q\n"] 0 initPState).2 ∧
    (parseStep ["@x/1\n", "s\n", "+\n", "q\n"] 0 initPState).2 ≤ 0 + 4 ∧
    parseLoopF 4 ["@x/1\n", "s\n", "+\n", "q\n"] 0 initPState =
      parseLoopF 9 ["@x/1\n", "s\n", "+\n", "q\n"] 0 initPState := by
  refine ⟨by decide, ?_, ?_, ?_⟩
  · exact ((c10_parser_terminates ["@x/1\n", "s\n", "+\n", "q\n"] 0 initPState).1
      (by decide)).1
  · exact ((c10_parser_terminates ["@x/1\n", "s\n", "+\n", "q\n"] 0 initPState).1
      (by decide)).2
  · exact (c10_parser_terminates ["@x/1\n", "s\n", "+\n", "q\n"] 0 initPState).2
      4 9 (by decide) (by decide)

theorem mem_dkeys_filter (d : Dict) (q : String → Bool) (k : String) :
    k ∈ dkeys (List.filter (fun p => q p.1) d) ↔ k ∈ dkeys d ∧ q k = true := by
  unfold dkeys
  constructor
  · intro h
    rcases List.mem_map.mp h with ⟨p, hp, rfl⟩
    rcases List.mem_filter.mp hp with ⟨hpd, hq⟩
    exact ⟨List.mem_map.mpr ⟨p, hpd, rfl⟩, hq⟩
  · rintro ⟨h, hq⟩
    rcases List.mem_map.mp h with ⟨p, hp, rfl⟩
    exact List.mem_map.mpr ⟨p, List.mem_filter.mpr ⟨hp, hq⟩, rfl⟩

/-- C3: for every pair of parsed collections and every base name `k`: if `k`
is a key of the first collection it lies in exactly one of missing-first and
paired-first; symmetrically for the second collection; and no base name is in
both the missing and the paired partition of the same mate type. -/
theorem c3_partition_exclusive (r1 r2 : Dict) (k : String) :
    (k ∈ dkeys r1 →
      (k ∈ dkeys (identifyMissingPairs r1 r2).1 ∧ k ∉ dkeys (identifyPairedReads r1 r2).1) ∨
      (k ∉ dkeys (identifyMissingPairs r1 r2).1 ∧ k ∈ dkeys (identifyPairedReads r1 r2).1)) ∧
    (k ∈ dkeys r2 →
      (k ∈ dkeys (identifyMissingPairs r1 r2).2 ∧ k ∉ dkeys (identifyPairedReads r1 r2).2) ∨
      (k ∉ dkeys (identifyMissingPairs r1 r2).2 ∧ k ∈ dkeys (identifyPairedReads r1 r2).2)) ∧
    ¬ (k ∈ dkeys (identifyMissingPairs r1 r2).1 ∧ k ∈ dkeys (identifyPairedReads r1 r2).1) ∧
    ¬ (k ∈ dkeys (identifyMissingPairs r1 r2).2 ∧ k ∈ dkeys (identifyPairedReads r1 r2).2) := by
  have hm1 := mem_dkeys_filter r1 (fun x => !(containsKey r2 x)) k
  have hp1 := mem_dkeys_filter r1 (fun x => containsKey r2 x) k
  have hm2 := mem_dkeys_filter r2 (fun x => !(containsKey r1 x)) k
  have hp2 := mem_dkeys_filter r2 (fun x => containsKey r1 x) k
  refine ⟨?_, ?_, ?_, ?_⟩
  · intro hk1
    by_cases hc : containsKey r2 k = true
    · right
      refine ⟨fun hx => ?_, hp1.mpr ⟨hk1, hc⟩⟩
      have := (hm1.mp hx).2
      rw [Bool.not_eq_true'] at this
      rw [this] at hc
      cases hc
    · left
      refine ⟨hm1.mpr ⟨hk1, by rw [Bool.not_eq_true', Bool.eq_false_iff]; exact hc⟩,
        fun hx => hc (hp1.mp hx).2⟩
  · intro hk2
    by_cases hc : containsKey r1 k = true
    · right
      refine ⟨fun hx => ?_, hp2.mpr ⟨hk2, hc⟩⟩
      have := (hm2.mp hx).2
      rw [Bool.not_eq_true'] at this
      rw [this] at hc
      cases hc
    · left
      refine ⟨hm2.mpr ⟨hk2, by rw [Bool.not_eq_true', Bool.eq_false_iff]; exact hc⟩,
        fun hx => hc (hp2.mp hx).2⟩
  · rintro ⟨hx, hy⟩
    have h1 := (hm1.mp hx).2
    have h2 := (hp1.mp hy).2
    rw [Bool.not_eq_true'] at h1
    rw [h1] at h2
    cases h2
  · rintro ⟨hx, hy⟩
    have h1 := (hm2.mp hx).2
    have h2 := (hp2.mp hy).2
    rw [Bool.not_eq_true'] at h1
    rw [h1] at h2
    cases h2

/-- Witness for C3 at concrete collections. -/
theorem c3_partition_exclusive_witness :
    "a" ∈ dkeys [("a", ["@a/1\n"]), ("b", ["@b/1\n"])] ∧
    (("a" ∈ dkeys (identifyMissingPairs [("a", ["@a/1\n"]), ("b", ["@b/1\n"])]
          [("a", ["@a/2\n"])]).1 ∧
      "a" ∉ dkeys (identifyPairedReads [("a", ["@a/1\n"]), ("b", ["@b/1\n"])]
          [("a", ["@a/2\n"])]).1) ∨
     ("a" ∉ dkeys (identifyMissingPairs [("a", ["@a/1\n"]), ("b", ["@b/1\n"])]
          [("a", ["@a/2\n"])]).1 ∧
      "a" ∈ dkeys (identifyPairedReads [("a", ["@a/1\n"]), ("b", ["@b/1\n"])]
          [("a", ["@a/2\n"])]).1)) :=
  ⟨by decide,
    (c3_partition_exclusive [("a", ["@a/1\n"]), ("b", ["@b/1\n"])]
      [("a", ["@a/2\n"])] "a").1 (by decide)⟩

/-- C5: the writer emits exactly the concatenation of the collection's
records, one per key, with the keys in strictly ascending code-point order —
a permutation of the collection's key set — and each record's lines are
emitted verbatim. -/
theorem c5_writer_sorted (d : Dict) (hnd : (dkeys d).Nodup) :
    writeLines d =
      (List.map (fun k => (dlookup d k).getD []) (sortedKeys d)).flatten ∧
    List.Sorted keyLtP (sortedKeys d) ∧
    List.Perm (sortedKeys d) (dkeys d) := by
  refine ⟨rfl, ?_, sSort_perm (dkeys d)⟩
  exact sorted_strict_of_nodup (sSort_sorted (dkeys d))
    ((sSort_perm (dkeys d)).nodup_iff.mpr hnd)

/-- Witness for C5 at a concrete collection. -/
theorem c5_writer_sorted_witness :
    (dkeys [("b", ["@b/1\n", "s\n", "+\n", "q\n"]), ("a", ["@a/1\n", "s\n", "+\n", "q\n"])]).Nodup ∧
    (writeLines [("b", ["@b/1\n", "s\n", "+\n", "q\n"]), ("a", ["@a/1\n", "s\n", "+\n", "q\n"])] =
      (List.map
        (fun k => (dlookup [("b", ["@b/1\n", "s\n", "+\n", "q\n"]),
            ("a", ["@a/1\n", "s\n", "+\n", "q\n"])] k).getD [])
        (sortedKeys [("b", ["@b/1\n", "s\n", "+\n", "q\n"]),
            ("a", ["@a/1\n", "s\n", "+\n", "q\n"])])).flatten ∧
     List.Sorted keyLtP (sortedKeys [("b", ["@b/1\n", "s\n", "+\n", "q\n"]),
        ("a", ["@a/1\n", "s\n", "+\n", "q\n"])]) ∧
     List.Perm (sortedKeys [("b", ["@b/1\n", "s\n", "+\n", "q\n"]),
          ("a", ["@a/1\n", "s\n", "+\n", "q\n"])])
       (dkeys [("b", ["@b/1\n", "s\n", "+\n", "q\n"]), ("a", ["@a/1\n", "s\n", "+\n", "q\n"])])) :=
  ⟨by decide, c5_writer_sorted _ (by decide)⟩

/-- C9: the writer's output is a function of the collection's contents alone:
collections holding the same entries in any build order (and the run being a
pure function of the input) produce byte-identical output.  Determinism of a
re-run is definitional in this embedding; the content of the claim is the
build-order independence proved here. -/
theorem c9_write_order_independent (d1 d2 : Dict) (hnd : (dkeys d1).Nodup)
    (hperm : List.Perm d1 d2) : writeLines d1 = writeLines d2 := by
  have hkeys : List.Perm (dkeys d1) (dkeys d2) := hperm.map Prod.fst
  have hnd2 : (dkeys d2).Nodup := hkeys.nodup_iff.mp hnd
  have hsorted : sortedKeys d1 = sortedKeys d2 := sSort_eq_of_perm hkeys
  unfold writeLines blocksOf
  rw [hsorted]
  congr 1
  refine List.map_congr_left ?_
  intro k hk
  have hk2 : k ∈ dkeys d2 := (sSort_perm (dkeys d2)).subset hk
  rcases exists_dlookup_of_mem_dkeys hk2 with ⟨v, hv⟩
  have hmem2 : (k, v) ∈ d2 := dlookup_mem hv
  have hmem1 : (k, v) ∈ d1 := hperm.mem_iff.mpr hmem2
  rw [hv, dlookup_eq_some_of_mem hnd hmem1]

/-- Witness for C9: two collections built in opposite orders write the same
bytes. -/
theorem c9_write_order_independent_witness :
    (dkeys [("a", ["@a/1\n", "s\n", "+\n", "q\n"]), ("b", ["@b/1\n", "t\n", "+\n", "r\n"])]).Nodup ∧
    List.Perm [("a", ["@a/1\n", "s\n", "+\n", "q\n"]), ("b", ["@b/1\n", "t\n", "+\n", "r\n"])]
      [("b", ["@b/1\n", "t\n", "+\n", "r\n"]), ("a", ["@a/1\n", "s\n", "+\n", "q\n"])] ∧
    writeLines [("a", ["@a/1\n", "s\n", "+\n", "q\n"]), ("b", ["@b/1\n", "t\n", "+\n", "r\n"])] =
      writeLines [("b", ["@b/1\n", "t\n", "+\n", "r\n"]), ("a", ["@a/1\n", "s\n", "+\n", "q\n"])] :=
  ⟨by decide, by decide,
    c9_write_order_independent _ _ (by decide) (by decide)⟩

theorem insertRecord_valid (ty : ReadType) (b : String) (r : List String) (s : PState) :
    (insertRecord ty b r s).valid = s.valid ∧
    (insertRecord ty b r s).invalid = s.invalid ∧
    (insertRecord ty b r s).malformed = s.malformed := by
  cases ty <;> simp [insertRecord]

/-- C8: parsing never fails on readable input — every anomalous line is
skipped (collections unchanged, cursor advanced by 1) with at most one
diagnostic counter incremented, never an exception — and `_parse_fastq_file`
raises an error exactly when reading the input fails, surfacing it as the
I/O failure condition. -/
theorem c8_parse_total :
    (∀ lines : List String, parseFastqFile (.ok lines) = .ok (parseCollections lines)) ∧
    (∀ e : Unit, parseFastqFile (.error e) = .error .ioFailure) ∧
    (∀ (lines : List String) (i : Nat) (st : PState),
      ((parseStep lines i st).1.r1 = st.r1 ∧ (parseStep lines i st).1.r2 = st.r2 ∧
       (parseStep lines i st).2 = i + 1 ∧ (parseStep lines i st).1.valid = st.valid ∧
       (parseStep lines i st).1.invalid + (parseStep lines i st).1.malformed ≤
         st.invalid + st.malformed + 1) ∨
      ((parseStep lines i st).2 = i + 4 ∧ (parseStep lines i st).1.valid = st.valid + 1 ∧
       (parseStep lines i st).1.invalid = st.invalid ∧
       (parseStep lines i st).1.malformed = st.malformed)) := by
  refine ⟨fun _ => rfl, fun _ => rfl, ?_⟩
  intro lines i st
  unfold parseStep
  dsimp only
  by_cases hAt : startsWithChar (lines.getD i "") '@' = true
  · rw [if_pos hAt]
    cases hty : identifyReadType (pyStrip (lines.getD i "")) with
    | none =>
      left
      exact ⟨rfl, rfl, rfl, rfl, by dsimp only; omega⟩
    | some ty =>
      dsimp only
      by_cases hlen : i + 3 < lines.length
      · rw [if_pos hlen]
        split
        · split
          · right
            exact ⟨rfl, (insertRecord_valid ty _ _ _).1,
              (insertRecord_valid ty _ _ _).2.1, (insertRecord_valid ty _ _ _).2.2⟩
          · left
            exact ⟨rfl, rfl, rfl, rfl, by dsimp only; omega⟩
        · left
          exact ⟨rfl, rfl, rfl, rfl, by dsimp only; omega⟩
      · rw [if_neg hlen]
        left
        exact ⟨rfl, rfl, rfl, rfl, by dsimp only; omega⟩
  · rw [if_neg hAt]
    left
    exact ⟨rfl, rfl, rfl, rfl, by dsimp only; omega⟩

theorem writeLoop_result (wOk uOk : String → Bool) (written fs : List String) :
    (writeLoop wOk uOk written fs).1 = .ok () ∨
    (writeLoop wOk uOk written fs).1 = .error .ioFailure := by
  induction fs generalizing written with
  | nil => left; rfl
  | cons f rest ih =>
    rw [writeLoop]
    by_cases hw : wOk f = true
    · rw [if_pos hw]
      exact ih (written ++ [f])
    · rw [if_neg hw]
      right
      rfl

/-- C6: `detangle` raises NotFound when the path does not exist, and
InvalidInput when it is not a regular file or has size zero — in each case
before any parsing work (the outcome is independent of the file's lines) —
and, once validation and reading succeed, raises InvalidInput
("no valid reads") exactly when both parsed collections are empty; in all
these failure cases no output file has been produced (no filesystem action
happened and nothing is on disk). -/
theorem c6_validation_errors (env : Env) (pfx : String) :
    (env.pathExists = false →
      detangle env pfx = (.error .notFound, [], []) ∧
      ∀ ls, detangle { env with lines := ls } pfx = detangle env pfx) ∧
    (env.pathExists = true → env.isFile = false →
      detangle env pfx = (.error (.invalidInput .notAFile), [], []) ∧
      ∀ ls, detangle { env with lines := ls } pfx = detangle env pfx) ∧
    (env.pathExists = true → env.isFile = true → env.size = 0 →
      detangle env pfx = (.error (.invalidInput .emptyFile), [], []) ∧
      ∀ ls, detangle { env with lines := ls } pfx = detangle env pfx) ∧
    (env.pathExists = true → env.isFile = true → env.size ≠ 0 → env.readOk = true →
      (((detangle env pfx).1 = .error (.invalidInput .noValidReads)) ↔
        ((parseCollections env.lines).1.isEmpty &&
          (parseCollections env.lines).2.isEmpty) = true) ∧
      (((parseCollections env.lines).1.isEmpty &&
          (parseCollections env.lines).2.isEmpty) = true →
        detangle env pfx = (.error (.invalidInput .noValidReads), [], []))) := by
  refine ⟨?_, ?_, ?_, ?_⟩
  · intro h1
    constructor
    · unfold detangle
      rw [h1]
      simp
    · intro ls
      unfold detangle
      rw [h1]
      simp
  · intro h1 h2
    constructor
    · unfold detangle
      rw [h1, h2]
      simp
    · intro ls
      unfold detangle
      rw [h1, h2]
      simp
  · intro h1 h2 h3
    constructor
    · unfold detangle
      rw [h1, h2, h3]
      simp
    · intro ls
      unfold detangle
      rw [h1, h2, h3]
      simp
  · intro h1 h2 h3 h4
    have hred : detangle env pfx =
        (if ((parseCollections env.lines).1.isEmpty &&
              (parseCollections env.lines).2.isEmpty) = true then
          (.error (.invalidInput .noValidReads), [], [])
         else writeLoop env.wOk env.uOk [] (outputNames pfx)) := by
      unfold detangle
      rw [h1, h2, h4]
      rw [if_neg (by simp), if_neg (by simp), if_neg h3, if_neg (by simp)]
    constructor
    · constructor
      · intro hx
        by_contra hempty
        rw [hred, if_neg hempty] at hx
        rcases writeLoop_result env.wOk env.uOk [] (outputNames pfx) with h | h <;>
          rw [h] at hx <;> cases hx
      · intro hempty
        rw [hred, if_pos hempty]
    · intro hempty
      rw [hred, if_pos hempty]

/-- Witness for C6: a readable, non-empty file whose lines contain no valid
read makes `detangle` fail with the "no valid reads" InvalidInput condition
and produce no output. -/
theorem c6_validation_errors_witness :
    ((⟨true, true, 2, true, ["x\n"], fun _ => true, fun _ => true⟩ : Env).pathExists = true) ∧
    detangle (⟨true, true, 2, true, ["x\n"], fun _ => true, fun _ => true⟩ : Env) "p" =
      (.error (.invalidInput .noValidReads), [], []) :=
  ⟨rfl,
    ((c6_validation_errors
        (⟨true, true, 2, true, ["x\n"], fun _ => true, fun _ => true⟩ : Env) "p").2.2.2
      rfl rfl (by decide) rfl).2 (by decide)⟩

/-- C7: the four output files are written in the fixed order missing-first,
missing-second, paired-first, paired-second; when every write succeeds all
four are on disk; at the first failing write the remaining writes are not
attempted, every output file already successfully written this run has its
removal attempted (an unlink failure is swallowed and leaves the file), and
the failure surfaces to the caller as the I/O failure condition. -/
theorem c7_write_failure_cleanup (env : Env) (pfx : String)
    (h1 : env.pathExists = true) (h2 : env.isFile = true) (h3 : env.size ≠ 0)
    (h4 : env.readOk = true)
    (h5 : ((parseCollections env.lines).1.isEmpty &&
      (parseCollections env.lines).2.isEmpty) = false) :
    ((outputNames pfx).all env.wOk = true →
      detangle env pfx =
        (.ok (), (outputNames pfx).map FsAction.fsWrite, outputNames pfx)) ∧
    (∀ j, j < 4 → env.wOk ((outputNames pfx).getD j "") = false →
      ((outputNames pfx).take j).all env.wOk = true →
      detangle env pfx =
        (.error .ioFailure,
         (((outputNames pfx).take (j + 1)).map FsAction.fsWrite) ++
           (((outputNames pfx).take j).map FsAction.fsUnlink),
         ((outputNames pfx).take j).filter (fun g => !(env.uOk g)))) := by
  have hred : detangle env pfx = writeLoop env.wOk env.uOk [] (outputNames pfx) := by
    unfold detangle
    rw [h1, h2, h4]
    rw [if_neg (by simp), if_neg (by simp), if_neg h3, if_neg (by simp),
      if_neg (by rw [h5]; decide)]
  constructor
  · intro hall
    rw [hred]
    unfold outputNames at hall ⊢
    simp only [List.all_cons, List.all_nil, Bool.and_eq_true] at hall
    rcases hall with ⟨hw0, hw1, hw2, hw3, _⟩
    rw [writeLoop, if_pos hw0, writeLoop, if_pos hw1, writeLoop, if_pos hw2,
      writeLoop, if_pos hw3, writeLoop]
    simp
  · intro j hj hwj hprior
    rw [hred]
    interval_cases j
    · rw [show ((outputNames pfx).getD 0 "") = pfx ++ "_R1_ordered_with_missing_R2.fastq"
        from rfl] at hwj
      unfold outputNames
      rw [writeLoop, if_neg (by rw [hwj]; decide)]
      simp [outputNames]
    · rw [show ((outputNames pfx).getD 1 "") = pfx ++ "_R2_ordered_with_missing_R1.fastq"
        from rfl] at hwj
      unfold outputNames at hprior ⊢
      simp only [List.take, List.all_cons, List.all_nil, Bool.and_eq_true] at hprior
      rcases hprior with ⟨hw0, _⟩
      rw [writeLoop, if_pos hw0, writeLoop, if_neg (by rw [hwj]; decide)]
      simp [outputNames]
    · rw [show ((outputNames pfx).getD 2 "") = pfx ++ "_R1_paired.fastq" from rfl] at hwj
      unfold outputNames at hprior ⊢
      simp only [List.take, List.all_cons, List.all_nil, Bool.and_eq_true] at hprior
      rcases hprior with ⟨hw0, hw1, _⟩
      rw [writeLoop, if_pos hw0, writeLoop, if_pos hw1,
        writeLoop, if_neg (by rw [hwj]; decide)]
      simp [outputNames]
    · rw [show ((outputNames pfx).getD 3 "") = pfx ++ "_R2_paired.fastq" from rfl] at hwj
      unfold outputNames at hprior ⊢
      simp only [List.take, List.all_cons, List.all_nil, Bool.and_eq_true] at hprior
      rcases hprior with ⟨hw0, hw1, hw2, _⟩
      rw [writeLoop, if_pos hw0, writeLoop, if_pos hw1, writeLoop, if_pos hw2,
        writeLoop, if_neg (by rw [hwj]; decide)]
      simp [outputNames]

/-- C7 witness: a run whose second write (missing-second) fails aborts there,
unlinks the already-written first file, and fails with the I/O condition. -/
theorem c7_write_failure_cleanup_witness :
    detangle (⟨true, true, 4, true, ["@x/1\n", "s\n", "+\n", "q\n"],
        fun f => !(decide (f = "p_R2_ordered_with_missing_R1.fastq")),
        fun _ => true⟩ : Env) "p" =
      (.error .ioFailure,
       (((outputNames "p").take 2).map FsAction.fsWrite) ++
         (((outputNames "p").take 1).map FsAction.fsUnlink),
       ((outputNames "p").take 1).filter
         (fun g => !((⟨true, true, 4, true, ["@x/1\n", "s\n", "+\n", "q\n"],
            fun f => !(decide (f = "p_R2_ordered_with_missing_R1.fastq")),
            fun _ => true⟩ : Env).uOk g))) :=
  (c7_write_failure_cleanup
      (⟨true, true, 4, true, ["@x/1\n", "s\n", "+\n", "q\n"],
        fun f => !(decide (f = "p_R2_ordered_with_missing_R1.fastq")),
        fun _ => true⟩ : Env) "p"
      rfl rfl (by decide) rfl (by decide)).2
    1 (by decide) (by decide) (by decide)

/-- C4 (amended): every record accepted by the parser, when its partition is
written, is emitted verbatim as exactly one of the writer's consecutive
4-line blocks (whose concatenation is the output file).  As a contiguous run
of output lines it appears at least there, but it can recur at a non-block
offset when overlapping neighbour records reproduce its lines — see the
counterexample — so "exactly once" holds of blocks, not of arbitrary
contiguous occurrences. -/
theorem c4_record_block_unique (lines : List String) (part : Dict)
    (hpart : part ∈ partsList lines) (k : String) (rec : List String)
    (hmem : (k, rec) ∈ part) :
    rec.length = 4 ∧ writeLines part = (blocksOf part).flatten ∧
    (blocksOf part).count rec = 1 := by
  rcases parts_inv lines part hpart with ⟨hnd, ty, hgood⟩
  have hg := hgood (k, rec) hmem
  refine ⟨hg.1, rfl, ?_⟩
  have hlk : dlookup part k = some rec := dlookup_eq_some_of_mem hnd hmem
  have hks : k ∈ dkeys part := List.mem_map.mpr ⟨(k, rec), hmem, rfl⟩
  have hperm := sSort_perm (dkeys part)
  have hkss : k ∈ sortedKeys part := hperm.mem_iff.mpr hks
  have hndss : (sortedKeys part).Nodup := hperm.nodup_iff.mpr hnd
  unfold blocksOf
  have h1 : (List.map (fun k2 => (dlookup part k2).getD []) (sortedKeys part)).count rec
      = List.countP (fun k2 => (dlookup part k2).getD [] == rec) (sortedKeys part) := by
    rw [show (List.map (fun k2 => (dlookup part k2).getD []) (sortedKeys part)).count rec
        = List.countP (· == rec)
            (List.map (fun k2 => (dlookup part k2).getD []) (sortedKeys part)) from rfl]
    rw [List.countP_map]
    rfl
  have h2 : List.countP (fun k2 => (dlookup part k2).getD [] == rec) (sortedKeys part)
      = List.countP (fun k2 => k2 == k) (sortedKeys part) := by
    refine List.countP_congr ?_
    intro k2 hk2
    rw [beq_iff_eq, beq_iff_eq]
    constructor
    · intro hfk
      have hk2d : k2 ∈ dkeys part := (sSort_perm (dkeys part)).subset hk2
      rcases exists_dlookup_of_mem_dkeys hk2d with ⟨v, hv⟩
      rw [hv] at hfk
      have hvrec : v = rec := hfk
      rw [hvrec] at hv
      have hmem2 : (k2, rec) ∈ part := dlookup_mem hv
      have hg2 := hgood (k2, rec) hmem2
      have e1 : extractBaseName (pyStrip (rec.headD "")) = k := hg.2.2
      have e2 : extractBaseName (pyStrip (rec.headD "")) = k2 := hg2.2.2
      exact e2.symm.trans e1
    · intro hk2k
      rw [hk2k, hlk]
      rfl
  rw [h1, h2]
  rw [show List.countP (fun k2 => k2 == k) (sortedKeys part)
      = (sortedKeys part).count k from rfl]
  have hle := (List.nodup_iff_count_le_one.mp hndss) k
  have hpos : 0 < (sortedKeys part).count k := List.count_pos_iff.mpr hkss
  omega

/-- C4 witness: a one-record input whose record occupies exactly one block of
the missing-first output. -/
theorem c4_record_block_unique_witness :
    (partsList ["@a/1\n", "s\n", "+\n", "q\n"]).getD 0 [] ∈
      partsList ["@a/1\n", "s\n", "+\n", "q\n"] ∧
    ("a", ["@a/1\n", "s\n", "+\n", "q\n"]) ∈
      (partsList ["@a/1\n", "s\n", "+\n", "q\n"]).getD 0 [] ∧
    ((["@a/1\n", "s\n", "+\n", "q\n"] : List String).length = 4 ∧
     writeLines ((partsList ["@a/1\n", "s\n", "+\n", "q\n"]).getD 0 []) =
       (blocksOf ((partsList ["@a/1\n", "s\n", "+\n", "q\n"]).getD 0 [])).flatten ∧
     (blocksOf ((partsList ["@a/1\n", "s\n", "+\n", "q\n"]).getD 0 [])).count
       ["@a/1\n", "s\n", "+\n", "q\n"] = 1) :=
  ⟨by decide, by decide,
    c4_record_block_unique ["@a/1\n", "s\n", "+\n", "q\n"]
      ((partsList ["@a/1\n", "s\n", "+\n", "q\n"]).getD 0 []) (by decide)
      "a" ["@a/1\n", "s\n", "+\n", "q\n"] (by decide)⟩

/-- C4 counterexample: in `exLines` the accepted record `cRec` (base name
`c`, in the missing-first partition) occurs twice as a contiguous run of
lines in that partition's output — once as its own block and once straddling
the records of `a` and `b` — so the claim's "appears … exactly once" fails
for the written file. -/
theorem c4_record_occurrence_counterexample :
    ("c", cRec) ∈ (partsList exLines).getD 0 [] ∧
    occCount cRec (writeLines ((partsList exLines).getD 0 [])) = 2 :=
  ⟨by decide, by decide⟩
